import Mathlib

/-!
Shallow embedding of `src/hashtable.rs` (crate `rstructs`): a fixed-bucket
separate-chaining hash table with `new`, `insert`, `len`, `nbuckets`, `get`,
`hash_for` and the panicking `Index` implementation.

Modelling decisions:
* `LinkedList<BucketNode<K, V>>` becomes `List (BucketNode K V)`;
  `push_front` is list cons.
* `DefaultHasher` is modelled by an arbitrary pure function `hashFn : K → Nat`
  whose result is truncated to 64 bits (`finish` returns `u64`).
* Rust operations that can panic are wrapped: `insert` and `get` return
  `Option` (`none` models the `%`-by-zero / out-of-bounds panic that the code
  would hit when the bucket vector were empty), and the `Index` impl returns
  `Except String` whose `error` carries the `expect` panic message.
* `usize` values are `Nat`; the `hash as usize` cast is the identity on the
  64-bit targets the crate assumes.
-/

set_option autoImplicit false

namespace RStructs

/-- Rust struct `BucketNode<K, V>`: one stored key/value pair. -/
structure BucketNode (K V : Type) where
  key : K
  value : V
  deriving DecidableEq

/-- Rust struct `Bucket<K, V>`: a chain of nodes (`LinkedList` in the source). -/
structure Bucket (K V : Type) where
  list : List (BucketNode K V)
  deriving DecidableEq

/-- The `Default` impl for `Bucket`: an empty chain. -/
def Bucket.defaultBucket (K V : Type) : Bucket K V := ⟨[]⟩

/-- The constant `DEFAULT_CAPACITY`. -/
def DEFAULT_CAPACITY : Nat := 16

/-- Rust struct `HashTable<K, V>`: the bucket vector and the entry count. -/
structure HashTable (K V : Type) where
  table : List (Bucket K V)
  count : Nat
  deriving DecidableEq

variable {K V : Type} [DecidableEq K]

/-- Method `HashTable::new`: `DEFAULT_CAPACITY` buckets created by
`resize_with(DEFAULT_CAPACITY, Default::default)`, count `0`. -/
def HashTable.new (K V : Type) : HashTable K V :=
  ⟨List.replicate DEFAULT_CAPACITY (Bucket.defaultBucket K V), 0⟩

/-- Method `HashTable::len`: returns the stored `count`. -/
def HashTable.len (ht : HashTable K V) : Nat := ht.count

/-- Method `HashTable::nbuckets`: length of the bucket vector. -/
def HashTable.nbuckets (ht : HashTable K V) : Nat := ht.table.length

/-- Method `HashTable::hash_for`: `DefaultHasher` is modelled as a pure function
`hashFn`, truncated to the 64 bits `finish` returns. -/
def hash_for (hashFn : K → Nat) (key : K) : Nat := hashFn key % 2 ^ 64

/-- The in-place update `*node = BucketNode {key, value}` performed on the
first node that `iter_mut().find(|node| node.key == key)` returns. -/
def replaceFirst (key : K) (value : V) : List (BucketNode K V) → List (BucketNode K V)
  | [] => []
  | n :: rest =>
    if n.key = key then ⟨key, value⟩ :: rest else n :: replaceFirst key value rest

/-- Method `HashTable::insert`. `none` models the panic on an empty bucket vector
(`%` by zero / out-of-bounds `self.table[pos_in_table]`); from `new` this
never happens. -/
def HashTable.insert (hashFn : K → Nat) (ht : HashTable K V) (key : K) (value : V) :
    Option (HashTable K V) :=
  let hash := hash_for hashFn key
  if ht.nbuckets = 0 then
    none
  else
    let pos_in_table := hash % ht.nbuckets
    match ht.table[pos_in_table]? with
    | none => none
    | some bucket =>
      match bucket.list.find? (fun node => decide (node.key = key)) with
      | some _ => some ⟨ht.table.set pos_in_table ⟨replaceFirst key value bucket.list⟩, ht.count⟩
      | none =>
        some ⟨ht.table.set pos_in_table ⟨⟨key, value⟩ :: bucket.list⟩, ht.count + 1⟩

/-- Method `HashTable::get`. The outer `Option` models the same panic case as in
`insert`; the inner `Option` is the `Option<&V>` the Rust function returns. -/
def HashTable.get (hashFn : K → Nat) (ht : HashTable K V) (key : K) :
    Option (Option V) :=
  let hash := hash_for hashFn key
  if ht.nbuckets = 0 then
    none
  else
    let pos_in_table := hash % ht.nbuckets
    match ht.table[pos_in_table]? with
    | none => none
    | some bucket =>
      match bucket.list.find? (fun node => decide (node.key = key)) with
      | some node => some (some node.value)
      | none => some none

/-- The `impl Index for HashTable`: `self.get(key).expect("entry not found")`.
The `expect` panic is modelled as `Except.error` carrying the panic message. -/
def HashTable.index (hashFn : K → Nat) (ht : HashTable K V) (key : K) :
    Option (Except String V) :=
  (ht.get hashFn key).map (fun r =>
    match r with
    | some v => Except.ok v
    | none => Except.error "entry not found")

/-- Driver: perform a sequence of insertions (the way the crate's tests loop
over key/value pairs), propagating the panic case. -/
def HashTable.insertList (hashFn : K → Nat) (ht : HashTable K V) :
    List (K × V) → Option (HashTable K V)
  | [] => some ht
  | (k, v) :: rest =>
    match ht.insert hashFn k v with
    | none => none
    | some ht1 => ht1.insertList hashFn rest

/-- A table state the API can actually produce: built from `new` by a
sequence of insertions. -/
def HashTable.Reachable (hashFn : K → Nat) (ht : HashTable K V) : Prop :=
  ∃ l : List (K × V), (HashTable.new K V).insertList hashFn l = some ht

/-- All nodes stored in the table, across buckets. -/
def HashTable.allNodes (ht : HashTable K V) : List (BucketNode K V) :=
  (ht.table.map Bucket.list).flatten

/-- Number of entries stored under `key`, across all buckets. -/
def HashTable.keyCount (ht : HashTable K V) (key : K) : Nat :=
  (ht.table.map (fun b => b.list.countP (fun n => decide (n.key = key)))).sum

/-- Placement invariant: every node sits in the bucket its key hashes to. -/
def HashTable.WellPlaced (hashFn : K → Nat) (ht : HashTable K V) : Prop :=
  ∀ i : Nat, ∀ hi : i < ht.table.length, ∀ node ∈ (ht.table.get ⟨i, hi⟩).list,
    hash_for hashFn node.key % ht.nbuckets = i


/-- Uniqueness invariant: at most one entry per key across all buckets. -/
def HashTable.AtMostOne (ht : HashTable K V) : Prop :=
  ∀ key : K, ht.keyCount key ≤ 1

/-- The bucket index `pos_in_table` that both `insert` and `get` compute. -/
def bucketIdx (hashFn : K → Nat) (ht : HashTable K V) (key : K) : Nat :=
  hash_for hashFn key % ht.nbuckets

/-- Concrete table for checks: keys 1 and 2 inserted into a fresh table. -/
def c1Table : HashTable Nat Nat :=
  ((HashTable.new Nat Nat).insertList id [(1, 10), (2, 20)]).getD (HashTable.new Nat Nat)

/-- Concrete table for checks: key 1 inserted once. -/
def c2Table1 : HashTable Nat Nat :=
  ((HashTable.new Nat Nat).insert id 1 10).getD (HashTable.new Nat Nat)

/-- Concrete table for checks: key 1 inserted twice with different values. -/
def c2Table2 : HashTable Nat Nat :=
  (c2Table1.insert id 1 20).getD (HashTable.new Nat Nat)

/-- Concrete table for checks: key 5 inserted into a fresh table. -/
def c3Table : HashTable Nat Nat :=
  ((HashTable.new Nat Nat).insert id 5 7).getD (HashTable.new Nat Nat)

/-- Concrete table for checks: three distinct keys inserted. -/
def c3ListTable : HashTable Nat Nat :=
  ((HashTable.new Nat Nat).insertList id [(1, 1), (2, 2), (3, 3)]).getD
    (HashTable.new Nat Nat)

/-- Concrete table for checks: key 3 inserted with value 9. -/
def c4Table : HashTable Nat Nat :=
  ((HashTable.new Nat Nat).insert id 3 9).getD (HashTable.new Nat Nat)

/-- Concrete table for checks: keys 1 and 2 inserted (other values). -/
def c5Table : HashTable Nat Nat :=
  ((HashTable.new Nat Nat).insertList id [(1, 11), (2, 21)]).getD (HashTable.new Nat Nat)

/-- Concrete table for checks: key 0 inserted into a fresh table. -/
def c8Table : HashTable Nat Nat :=
  ((HashTable.new Nat Nat).insert id 0 5).getD (HashTable.new Nat Nat)

section Lemmas

variable {hashFn : K → Nat}

/-- Restatement of `WellPlaced` through `getElem`, convenient in proofs. -/
theorem wellPlaced_def {f : K → Nat} {ht : HashTable K V} :
    ht.WellPlaced f ↔ ∀ i : Nat, ∀ hi : i < ht.table.length,
      ∀ node ∈ ht.table[i].list, hash_for f node.key % ht.nbuckets = i := by
  unfold HashTable.WellPlaced
  simp only [List.get_eq_getElem]

theorem replaceFirst_length (key : K) (value : V) (l : List (BucketNode K V)) :
    (replaceFirst key value l).length = l.length := by
  induction l with
  | nil => rfl
  | cons n rest ih =>
    by_cases hk : n.key = key <;> simp [replaceFirst, hk, ih]

theorem find?_replaceFirst_self (key : K) (value : V) (l : List (BucketNode K V))
    (h : ((l.find? fun node => decide (node.key = key))).isSome) :
    ((replaceFirst key value l).find? fun node => decide (node.key = key))
      = some ⟨key, value⟩ := by
  induction l with
  | nil => simp [List.find?] at h
  | cons n rest ih =>
    by_cases hk : n.key = key
    · simp [replaceFirst, hk]
    · rw [List.find?_cons_of_neg _ (by simp [hk])] at h
      rw [replaceFirst, if_neg hk, List.find?_cons_of_neg _ (by simp [hk])]
      exact ih h

theorem find?_replaceFirst_other (key key' : K) (value : V) (hne : key' ≠ key)
    (l : List (BucketNode K V)) :
    ((replaceFirst key value l).find? fun node => decide (node.key = key'))
      = (l.find? fun node => decide (node.key = key')) := by
  induction l with
  | nil => rfl
  | cons n rest ih =>
    by_cases hk : n.key = key
    · have h1 : ¬ (key = key') := fun h => hne h.symm
      have h2 : ¬ (n.key = key') := hk ▸ h1
      simp [replaceFirst, hk, List.find?_cons_of_neg, h1, h2]
    · rw [replaceFirst, if_neg hk]
      by_cases hk' : n.key = key'
      · rw [List.find?_cons_of_pos _ (by simp [hk']),
          List.find?_cons_of_pos _ (by simp [hk'])]
      · rw [List.find?_cons_of_neg _ (by simp [hk']),
          List.find?_cons_of_neg _ (by simp [hk'])]
        exact ih

theorem countP_replaceFirst (key key' : K) (value : V) (l : List (BucketNode K V)) :
    ((replaceFirst key value l).countP fun n => decide (n.key = key'))
      = (l.countP fun n => decide (n.key = key')) := by
  induction l with
  | nil => rfl
  | cons n rest ih =>
    by_cases hk : n.key = key
    · by_cases hk' : key = key'
      · simp [replaceFirst, hk, List.countP_cons, hk ▸ hk']
      · have h2 : ¬ (n.key = key') := hk ▸ hk'
        simp [replaceFirst, hk, List.countP_cons, hk', h2]
    · simp [replaceFirst, hk, List.countP_cons, ih]

theorem mem_replaceFirst (key : K) (value : V) (l : List (BucketNode K V))
    (n : BucketNode K V) (h : n ∈ replaceFirst key value l) :
    n = ⟨key, value⟩ ∨ n ∈ l := by
  induction l with
  | nil => simp [replaceFirst] at h
  | cons m rest ih =>
    by_cases hk : m.key = key
    · rw [replaceFirst, if_pos hk] at h
      rcases List.mem_cons.mp h with h | h
      · exact Or.inl h
      · exact Or.inr (List.mem_cons_of_mem _ h)
    · rw [replaceFirst, if_neg hk] at h
      rcases List.mem_cons.mp h with h | h
      · exact Or.inr (h ▸ List.mem_cons_self _ _)
      · rcases ih h with h | h
        · exact Or.inl h
        · exact Or.inr (List.mem_cons_of_mem _ h)

theorem sum_map_set {α : Type} (f : α → Nat) (l : List α) (i : Nat) (a : α)
    (hi : i < l.length) :
    ((l.set i a).map f).sum + f l[i] = (l.map f).sum + f a := by
  induction l generalizing i with
  | nil => simp at hi
  | cons x xs ih =>
    cases i with
    | zero => simp [List.set]; omega
    | succ j =>
      have hj : j < xs.length := by simpa using hi
      have h1 := ih j hj
      show ((x :: xs.set j a).map f).sum + f xs[j] = ((x :: xs).map f).sum + f a
      simp only [List.map_cons, List.sum_cons]
      omega

theorem nbuckets_pos_of_lt {ht : HashTable K V} {i : Nat} (h : i < ht.table.length) :
    ht.nbuckets ≠ 0 := by
  intro h0
  rw [HashTable.nbuckets] at h0
  omega

theorem bucketIdx_lt (f : K → Nat) (ht : HashTable K V) (key : K) (h0 : ht.nbuckets ≠ 0) :
    bucketIdx f ht key < ht.table.length :=
  Nat.mod_lt _ (Nat.pos_of_ne_zero h0)

theorem insert_zero {ht : HashTable K V} (key : K) (value : V) (h0 : ht.nbuckets = 0) :
    ht.insert hashFn key value = none := by
  unfold HashTable.insert
  simp [h0]

theorem get_zero {ht : HashTable K V} (key : K) (h0 : ht.nbuckets = 0) :
    ht.get hashFn key = none := by
  unfold HashTable.get
  simp [h0]

theorem insert_found {ht : HashTable K V} {key : K} (value : V)
    (hpos : bucketIdx hashFn ht key < ht.table.length)
    (hfind : ((ht.table[bucketIdx hashFn ht key]).list.find?
      fun node => decide (node.key = key)).isSome) :
    ht.insert hashFn key value =
      some ⟨ht.table.set (bucketIdx hashFn ht key)
        ⟨replaceFirst key value (ht.table[bucketIdx hashFn ht key]).list⟩, ht.count⟩ := by
  have h0 : ht.nbuckets ≠ 0 := nbuckets_pos_of_lt hpos
  obtain ⟨n, hn⟩ := Option.isSome_iff_exists.mp hfind
  simp only [bucketIdx] at hpos hn ⊢
  unfold HashTable.insert
  simp only [if_neg h0, List.getElem?_eq_getElem hpos, hn]

theorem insert_not_found {ht : HashTable K V} {key : K} (value : V)
    (hpos : bucketIdx hashFn ht key < ht.table.length)
    (hfind : ((ht.table[bucketIdx hashFn ht key]).list.find?
      fun node => decide (node.key = key)) = none) :
    ht.insert hashFn key value =
      some ⟨ht.table.set (bucketIdx hashFn ht key)
        ⟨⟨key, value⟩ :: (ht.table[bucketIdx hashFn ht key]).list⟩, ht.count + 1⟩ := by
  have h0 : ht.nbuckets ≠ 0 := nbuckets_pos_of_lt hpos
  simp only [bucketIdx] at hpos hfind ⊢
  unfold HashTable.insert
  simp only [if_neg h0, List.getElem?_eq_getElem hpos, hfind]

theorem get_eq {ht : HashTable K V} (key : K)
    (hpos : bucketIdx hashFn ht key < ht.table.length) :
    ht.get hashFn key =
      some (((ht.table[bucketIdx hashFn ht key]).list.find?
        fun node => decide (node.key = key)).map BucketNode.value) := by
  have h0 : ht.nbuckets ≠ 0 := nbuckets_pos_of_lt hpos
  simp only [bucketIdx] at hpos ⊢
  unfold HashTable.get
  cases hfind : ((ht.table[hash_for hashFn key % ht.nbuckets]).list.find?
      fun node => decide (node.key = key)) with
  | none =>
    simp only [if_neg h0, List.getElem?_eq_getElem hpos, hfind]
    rfl
  | some n =>
    simp only [if_neg h0, List.getElem?_eq_getElem hpos, hfind]
    rfl

theorem insert_some_elim {ht ht' : HashTable K V} {key : K} {value : V}
    (h : ht.insert hashFn key value = some ht') :
    ∃ hpos : bucketIdx hashFn ht key < ht.table.length,
      (((ht.table[bucketIdx hashFn ht key]).list.find?
          fun node => decide (node.key = key)).isSome ∧
        ht' = ⟨ht.table.set (bucketIdx hashFn ht key)
          ⟨replaceFirst key value (ht.table[bucketIdx hashFn ht key]).list⟩, ht.count⟩)
      ∨
      (((ht.table[bucketIdx hashFn ht key]).list.find?
          fun node => decide (node.key = key)) = none ∧
        ht' = ⟨ht.table.set (bucketIdx hashFn ht key)
          ⟨⟨key, value⟩ :: (ht.table[bucketIdx hashFn ht key]).list⟩, ht.count + 1⟩) := by
  by_cases h0 : ht.nbuckets = 0
  · rw [insert_zero key value h0] at h
    exact absurd h (by simp)
  · have hpos := bucketIdx_lt hashFn ht key h0
    refine ⟨hpos, ?_⟩
    cases hfind : ((ht.table[bucketIdx hashFn ht key]).list.find?
        fun node => decide (node.key = key)) with
    | none =>
      rw [insert_not_found value hpos hfind, Option.some.injEq] at h
      exact Or.inr ⟨rfl, h.symm⟩
    | some n =>
      rw [insert_found value hpos (by simp [hfind]), Option.some.injEq] at h
      exact Or.inl ⟨by simp, h.symm⟩

theorem nbuckets_insert {ht ht' : HashTable K V} {key : K} {value : V}
    (h : ht.insert hashFn key value = some ht') : ht'.nbuckets = ht.nbuckets := by
  obtain ⟨hpos, hcase⟩ := insert_some_elim h
  rcases hcase with ⟨-, rfl⟩ | ⟨-, rfl⟩ <;> simp [HashTable.nbuckets]

theorem insert_isSome (f : K → Nat) (ht : HashTable K V) (key : K) (value : V)
    (h0 : ht.nbuckets ≠ 0) : ∃ ht2, ht.insert f key value = some ht2 := by
  have hpos := bucketIdx_lt f ht key h0
  cases hfind : ((ht.table[bucketIdx f ht key]).list.find?
      fun node => decide (node.key = key)) with
  | none => exact ⟨_, insert_not_found value hpos hfind⟩
  | some n => exact ⟨_, insert_found value hpos (by simp [hfind])⟩

theorem get_set_bucket {table : List (Bucket K V)} (cnt : Nat) (key : K) (b : Bucket K V)
    (hpos : hash_for hashFn key % table.length < table.length) :
    HashTable.get hashFn ⟨table.set (hash_for hashFn key % table.length) b, cnt⟩ key
      = some ((b.list.find? fun node => decide (node.key = key)).map BucketNode.value) := by
  have hz : table.length ≠ 0 := by omega
  unfold HashTable.get
  simp only [HashTable.nbuckets, List.length_set]
  rw [if_neg hz]
  rw [List.getElem?_eq_getElem (by simpa using hpos)]
  rw [List.getElem_set_self]
  cases hfind : (b.list.find? fun node => decide (node.key = key)) <;> simp [hfind]

theorem get_set_bucket2 {table : List (Bucket K V)} (cnt : Nat) (key : K) (j : Nat)
    (b : Bucket K V) (hpos : hash_for hashFn key % table.length < table.length)
    (hj : j = hash_for hashFn key % table.length) :
    HashTable.get hashFn ⟨table.set j b, cnt⟩ key
      = some ((b.list.find? fun node => decide (node.key = key)).map BucketNode.value) := by
  subst hj
  exact get_set_bucket cnt key b hpos

theorem get_set_other {table : List (Bucket K V)} (cnt cnt2 : Nat) (key : K) (j : Nat)
    (b : Bucket K V) (hj : j ≠ hash_for hashFn key % table.length) :
    HashTable.get hashFn ⟨table.set j b, cnt⟩ key
      = HashTable.get hashFn ⟨table, cnt2⟩ key := by
  by_cases hz : table.length = 0
  · rw [get_zero key (by simp [HashTable.nbuckets, hz]),
      get_zero key (by simp [HashTable.nbuckets, hz])]
  · have hpos : hash_for hashFn key % table.length < table.length :=
      Nat.mod_lt _ (by omega)
    unfold HashTable.get
    simp only [HashTable.nbuckets, List.length_set]
    rw [if_neg hz, if_neg hz]
    rw [List.getElem?_eq_getElem (by simpa using hpos),
      List.getElem?_eq_getElem hpos]
    rw [List.getElem_set_ne hj]

theorem get_insert_self {ht ht' : HashTable K V} {key : K} {value : V}
    (h : ht.insert hashFn key value = some ht') :
    ht'.get hashFn key = some (some value) := by
  obtain ⟨hpos, hcase⟩ := insert_some_elim h
  simp only [bucketIdx, HashTable.nbuckets] at hpos hcase
  rcases hcase with ⟨hfound, rfl⟩ | ⟨hnone, rfl⟩
  · rw [get_set_bucket ht.count key _ hpos]
    rw [find?_replaceFirst_self key value _ hfound]
    rfl
  · rw [get_set_bucket (ht.count + 1) key _ hpos]
    rw [List.find?_cons_of_pos _ (by simp)]
    rfl

theorem get_insert_other {ht ht' : HashTable K V} {key key' : K} {value : V}
    (hne : key' ≠ key) (h : ht.insert hashFn key value = some ht') :
    ht'.get hashFn key' = ht.get hashFn key' := by
  obtain ⟨hpos, hcase⟩ := insert_some_elim h
  simp only [bucketIdx, HashTable.nbuckets] at hpos hcase
  by_cases hsame : hash_for hashFn key % ht.table.length
      = hash_for hashFn key' % ht.table.length
  · rcases hcase with ⟨hfound, rfl⟩ | ⟨hnone, rfl⟩
    · rw [get_set_bucket2 ht.count key' (hash_for hashFn key % ht.table.length) _
        (hsame ▸ hpos) hsame]
      rw [get_eq key' (by simpa [bucketIdx, HashTable.nbuckets] using hsame ▸ hpos)]
      simp only [bucketIdx, HashTable.nbuckets]
      dsimp only
      rw [find?_replaceFirst_other key key' value hne]
      simp only [hsame]
    · rw [get_set_bucket2 (ht.count + 1) key' (hash_for hashFn key % ht.table.length) _
        (hsame ▸ hpos) hsame]
      rw [get_eq key' (by simpa [bucketIdx, HashTable.nbuckets] using hsame ▸ hpos)]
      simp only [bucketIdx, HashTable.nbuckets]
      have hpred : ¬ ((⟨key, value⟩ : BucketNode K V).key = key') :=
        fun hcon => hne (hcon.symm)
      dsimp only
      rw [List.find?_cons_of_neg _ (by simp [hpred])]
      simp only [hsame]
  · rcases hcase with ⟨hfound, rfl⟩ | ⟨hnone, rfl⟩
    · exact get_set_other ht.count ht.count key' _ _ hsame
    · exact get_set_other (ht.count + 1) ht.count key' _ _ hsame

theorem nbuckets_new (K V : Type) : (HashTable.new K V).nbuckets = 16 := by
  simp [HashTable.new, HashTable.nbuckets, DEFAULT_CAPACITY]

theorem get_new (f : K → Nat) (key : K) :
    (HashTable.new K V).get f key = some none := by
  have hpos : bucketIdx f (HashTable.new K V) key < (HashTable.new K V).table.length :=
    bucketIdx_lt f _ key (by rw [nbuckets_new]; omega)
  rw [get_eq key hpos]
  have hdef : (HashTable.new K V).table[bucketIdx f (HashTable.new K V) key]
      = Bucket.defaultBucket K V := by
    simp [HashTable.new, List.getElem_replicate]
  rw [hdef]
  rfl

theorem len_insert_of_get_none {ht ht' : HashTable K V} {key : K} {value : V}
    (hg : ht.get hashFn key = some none)
    (h : ht.insert hashFn key value = some ht') : ht'.len = ht.len + 1 := by
  obtain ⟨hpos, hcase⟩ := insert_some_elim h
  rw [get_eq key hpos] at hg
  rcases hcase with ⟨hfound, rfl⟩ | ⟨hnone, rfl⟩
  · obtain ⟨n, hn⟩ := Option.isSome_iff_exists.mp hfound
    rw [hn] at hg
    simp at hg
  · rfl

theorem len_insert_of_get_some {ht ht' : HashTable K V} {key : K} {value w : V}
    (hg : ht.get hashFn key = some (some w))
    (h : ht.insert hashFn key value = some ht') : ht'.len = ht.len := by
  obtain ⟨hpos, hcase⟩ := insert_some_elim h
  rw [get_eq key hpos] at hg
  rcases hcase with ⟨hfound, rfl⟩ | ⟨hnone, rfl⟩
  · rfl
  · rw [hnone] at hg
    simp at hg

theorem allNodes_length (ht : HashTable K V) :
    ht.allNodes.length = (ht.table.map fun b => b.list.length).sum := by
  simp only [HashTable.allNodes, List.length_flatten, List.map_map]
  rfl

theorem count_allNodes_insert {ht ht' : HashTable K V} {key : K} {value : V}
    (h : ht.insert hashFn key value = some ht')
    (hc : ht.count = ht.allNodes.length) : ht'.count = ht'.allNodes.length := by
  obtain ⟨hpos, hcase⟩ := insert_some_elim h
  rw [allNodes_length] at hc
  rcases hcase with ⟨hfound, rfl⟩ | ⟨hnone, rfl⟩
  · have hs := sum_map_set (fun b => b.list.length) ht.table _
      ⟨replaceFirst key value (ht.table[bucketIdx hashFn ht key]).list⟩ hpos
    have hrl := replaceFirst_length key value (ht.table[bucketIdx hashFn ht key]).list
    rw [allNodes_length]
    dsimp only at hs ⊢
    omega
  · have hs := sum_map_set (fun b => b.list.length) ht.table _
      ⟨⟨key, value⟩ :: (ht.table[bucketIdx hashFn ht key]).list⟩ hpos
    rw [allNodes_length]
    dsimp only at hs ⊢
    simp only [List.length_cons] at hs
    omega

theorem keyCount_mk_set (table : List (Bucket K V)) (cnt cnt2 : Nat) (i : Nat)
    (hi : i < table.length) (b : Bucket K V) (key' : K) :
    HashTable.keyCount ⟨table.set i b, cnt⟩ key'
        + ((table[i]).list.countP fun n => decide (n.key = key'))
      = HashTable.keyCount ⟨table, cnt2⟩ key'
        + (b.list.countP fun n => decide (n.key = key')) := by
  have hs := sum_map_set (fun bb => bb.list.countP fun n => decide (n.key = key')) table i b hi
  exact hs

theorem keyCount_eq_zero {ht : HashTable K V} (hW : ht.WellPlaced hashFn) (key : K)
    (hpos : bucketIdx hashFn ht key < ht.table.length)
    (hfind : ((ht.table[bucketIdx hashFn ht key]).list.find?
      fun node => decide (node.key = key)) = none) :
    ht.keyCount key = 0 := by
  unfold HashTable.keyCount
  apply List.sum_eq_zero
  intro x hx
  obtain ⟨b, hb, rfl⟩ := List.mem_map.mp hx
  obtain ⟨i, hi, rfl⟩ := List.mem_iff_getElem.mp hb
  rw [List.countP_eq_zero]
  intro node hnode
  simp only [decide_eq_true_eq]
  intro hkey
  have hplace := (wellPlaced_def.mp hW) i hi node hnode
  rw [hkey] at hplace
  have hi2 : bucketIdx hashFn ht key = i := hplace
  subst hi2
  have hcon := List.find?_eq_none.mp hfind node hnode
  simp [hkey] at hcon

theorem wellPlaced_new (f : K → Nat) : (HashTable.new K V).WellPlaced f := by
  rw [wellPlaced_def]
  intro i hi node hnode
  simp [HashTable.new, List.getElem_replicate, Bucket.defaultBucket] at hnode

theorem atMostOne_new (K V : Type) [DecidableEq K] : (HashTable.new K V).AtMostOne := by
  intro key
  simp [HashTable.keyCount, HashTable.new, Bucket.defaultBucket, List.map_replicate]

theorem count_allNodes_new (K V : Type) :
    (HashTable.new K V).count = (HashTable.new K V).allNodes.length := by
  simp [HashTable.new, HashTable.allNodes, Bucket.defaultBucket, List.map_replicate]

theorem wellPlaced_insert {ht ht' : HashTable K V} {key : K} {value : V}
    (hW : ht.WellPlaced hashFn) (h : ht.insert hashFn key value = some ht') :
    ht'.WellPlaced hashFn := by
  obtain ⟨hpos, hcase⟩ := insert_some_elim h
  have hnb : ht'.nbuckets = ht.nbuckets := nbuckets_insert h
  rw [wellPlaced_def] at hW ⊢
  rcases hcase with ⟨hfound, rfl⟩ | ⟨hnone, rfl⟩
  · intro i hi node hnode
    dsimp only at hnode hi ⊢
    rw [hnb]
    have hi2 : i < ht.table.length := by simpa using hi
    by_cases hip : i = bucketIdx hashFn ht key
    · subst hip
      rw [List.getElem_set_self] at hnode
      dsimp only at hnode
      rcases mem_replaceFirst key value _ node hnode with rfl | hmem
      · rfl
      · exact hW (bucketIdx hashFn ht key) hpos node hmem
    · rw [List.getElem_set_ne (Ne.symm hip)] at hnode
      exact hW i hi2 node hnode
  · intro i hi node hnode
    dsimp only at hnode hi ⊢
    rw [hnb]
    have hi2 : i < ht.table.length := by simpa using hi
    by_cases hip : i = bucketIdx hashFn ht key
    · subst hip
      rw [List.getElem_set_self] at hnode
      dsimp only at hnode
      rcases List.mem_cons.mp hnode with rfl | hmem
      · rfl
      · exact hW (bucketIdx hashFn ht key) hpos node hmem
    · rw [List.getElem_set_ne (Ne.symm hip)] at hnode
      exact hW i hi2 node hnode

theorem atMostOne_insert {ht ht' : HashTable K V} {key : K} {value : V}
    (hW : ht.WellPlaced hashFn) (hA : ht.AtMostOne)
    (h : ht.insert hashFn key value = some ht') : ht'.AtMostOne := by
  obtain ⟨hpos, hcase⟩ := insert_some_elim h
  intro key'
  have hA' := hA key'
  rcases hcase with ⟨hfound, rfl⟩ | ⟨hnone, rfl⟩
  · have hset := keyCount_mk_set ht.table ht.count ht.count (bucketIdx hashFn ht key)
      hpos ⟨replaceFirst key value (ht.table[bucketIdx hashFn ht key]).list⟩ key'
    have hrepl := countP_replaceFirst key key' value
      (ht.table[bucketIdx hashFn ht key]).list
    have hEta : HashTable.keyCount ⟨ht.table, ht.count⟩ key' = ht.keyCount key' := rfl
    dsimp only at hset
    omega
  · have hset := keyCount_mk_set ht.table (ht.count + 1) ht.count (bucketIdx hashFn ht key)
      hpos ⟨⟨key, value⟩ :: (ht.table[bucketIdx hashFn ht key]).list⟩ key'
    have hEta : HashTable.keyCount ⟨ht.table, ht.count⟩ key' = ht.keyCount key' := rfl
    dsimp only at hset
    by_cases hk : key' = key
    · subst hk
      have hzero : ht.keyCount key' = 0 := keyCount_eq_zero hW key' hpos hnone
      rw [List.countP_cons_of_pos _ _ (by simp)] at hset
      omega
    · rw [List.countP_cons_of_neg _ _
        (by simp only [decide_eq_true_eq]; exact fun hcon => hk hcon.symm)] at hset
      omega

theorem insertList_pred (P : HashTable K V → Prop) (f : K → Nat)
    (hP : ∀ ht k v ht2, P ht → ht.insert f k v = some ht2 → P ht2) :
    ∀ (l : List (K × V)) (ht ht2 : HashTable K V),
      P ht → ht.insertList f l = some ht2 → P ht2 := by
  intro l
  induction l with
  | nil =>
    intro ht ht2 hp h
    simp only [HashTable.insertList] at h
    cases h
    exact hp
  | cons kv rest ih =>
    intro ht ht2 hp h
    obtain ⟨k, v⟩ := kv
    simp only [HashTable.insertList] at h
    cases hins : ht.insert f k v with
    | none => rw [hins] at h; simp at h
    | some ht1 =>
      rw [hins] at h
      exact ih ht1 ht2 (hP ht k v ht1 hp hins) h

theorem insertList_some (f : K → Nat) :
    ∀ (l : List (K × V)) (ht : HashTable K V), ht.nbuckets ≠ 0 →
      ∃ ht2, ht.insertList f l = some ht2 := by
  intro l
  induction l with
  | nil => intro ht h0; exact ⟨ht, rfl⟩
  | cons kv rest ih =>
    intro ht h0
    obtain ⟨k, v⟩ := kv
    obtain ⟨ht1, h1⟩ := insert_isSome f ht k v h0
    obtain ⟨ht2, h2⟩ := ih ht1 (by rw [nbuckets_insert h1]; exact h0)
    refine ⟨ht2, ?_⟩
    simp only [HashTable.insertList, h1]
    exact h2

theorem nbuckets_insertList {f : K → Nat} {l : List (K × V)} {ht ht2 : HashTable K V}
    (h : ht.insertList f l = some ht2) : ht2.nbuckets = ht.nbuckets :=
  insertList_pred (fun t => t.nbuckets = ht.nbuckets) f
    (fun _ _ _ _ hp hins => by
      show _ = ht.nbuckets
      rw [nbuckets_insert hins]
      exact hp) l ht ht2 rfl h

theorem get_insertList_not_mem {f : K → Nat} :
    ∀ (l : List (K × V)) (ht ht2 : HashTable K V) (key : K),
      key ∉ l.map Prod.fst → ht.insertList f l = some ht2 →
      ht2.get f key = ht.get f key := by
  intro l
  induction l with
  | nil =>
    intro ht ht2 key hmem h
    cases h
    rfl
  | cons kv rest ih =>
    intro ht ht2 key hmem h
    obtain ⟨k, v⟩ := kv
    simp only [List.map_cons, List.mem_cons, not_or] at hmem
    obtain ⟨hne, hrest⟩ := hmem
    simp only [HashTable.insertList] at h
    cases hins : ht.insert f k v with
    | none => rw [hins] at h; simp at h
    | some ht1 =>
      rw [hins] at h
      rw [ih ht1 ht2 key hrest h]
      exact get_insert_other hne hins

theorem get_insertList_mem {f : K → Nat} :
    ∀ (l : List (K × V)) (ht ht2 : HashTable K V) (k : K) (v : V),
      (l.map Prod.fst).Nodup → (k, v) ∈ l →
      ht.insertList f l = some ht2 → ht2.get f k = some (some v) := by
  intro l
  induction l with
  | nil =>
    intro ht ht2 k v hnd hmem h
    cases hmem
  | cons kv rest ih =>
    intro ht ht2 k v hnd hmem h
    obtain ⟨k0, v0⟩ := kv
    simp only [HashTable.insertList] at h
    cases hins : ht.insert f k0 v0 with
    | none => rw [hins] at h; simp at h
    | some ht1 =>
      rw [hins] at h
      simp only [List.map_cons, List.nodup_cons] at hnd
      obtain ⟨hk0, hndrest⟩ := hnd
      rcases List.mem_cons.mp hmem with heq | hmem2
      · injection heq with h1 h2
        subst h1
        subst h2
        rw [get_insertList_not_mem rest ht1 ht2 k hk0 h]
        exact get_insert_self hins
      · exact ih ht1 ht2 k v hndrest hmem2 h

theorem len_insertList_distinct {f : K → Nat} :
    ∀ (l : List (K × V)) (ht ht2 : HashTable K V),
      (l.map Prod.fst).Nodup →
      (∀ p ∈ l, ht.get f p.1 = some none) →
      ht.insertList f l = some ht2 → ht2.len = ht.len + l.length := by
  intro l
  induction l with
  | nil =>
    intro ht ht2 _ _ h
    cases h
    rfl
  | cons kv rest ih =>
    intro ht ht2 hnd habs h
    obtain ⟨k0, v0⟩ := kv
    simp only [HashTable.insertList] at h
    cases hins : ht.insert f k0 v0 with
    | none => rw [hins] at h; simp at h
    | some ht1 =>
      rw [hins] at h
      simp only [List.map_cons, List.nodup_cons] at hnd
      obtain ⟨hk0, hndrest⟩ := hnd
      have h1len : ht1.len = ht.len + 1 :=
        len_insert_of_get_none (habs (k0, v0) (List.mem_cons_self _ _)) hins
      have habs1 : ∀ p ∈ rest, ht1.get f p.1 = some none := by
        intro p hp
        have hne : p.1 ≠ k0 := by
          intro hcon
          exact hk0 (hcon ▸ List.mem_map_of_mem Prod.fst hp)
        rw [get_insert_other hne hins]
        exact habs p (List.mem_cons_of_mem _ hp)
      rw [ih ht1 ht2 hndrest habs1 h, h1len, List.length_cons]
      omega

theorem reachable_props {f : K → Nat} {ht : HashTable K V} (h : ht.Reachable f) :
    ht.nbuckets = 16 ∧ ht.WellPlaced f ∧ ht.AtMostOne
      ∧ ht.count = ht.allNodes.length := by
  obtain ⟨l, hl⟩ := h
  refine insertList_pred
    (fun t => t.nbuckets = 16 ∧ t.WellPlaced f ∧ t.AtMostOne
      ∧ t.count = t.allNodes.length)
    f ?_ l (HashTable.new K V) ht ?_ hl
  · rintro t k v t2 ⟨h16, hWp, hAm, hc⟩ hins
    exact ⟨by rw [nbuckets_insert hins]; exact h16, wellPlaced_insert hWp hins,
      atMostOne_insert hWp hAm hins, count_allNodes_insert hins hc⟩
  · exact ⟨nbuckets_new K V, wellPlaced_new f, atMostOne_new K V, count_allNodes_new K V⟩

theorem index_of_get_some {f : K → Nat} {ht : HashTable K V} {key : K} {v : V}
    (h : ht.get f key = some (some v)) : ht.index f key = some (Except.ok v) := by
  unfold HashTable.index
  rw [h]
  rfl

theorem index_of_get_none {f : K → Nat} {ht : HashTable K V} {key : K}
    (h : ht.get f key = some none) :
    ht.index f key = some (Except.error "entry not found") := by
  unfold HashTable.index
  rw [h]
  rfl

theorem keyCount_insert_self_eq_one {ht ht2 : HashTable K V} {key : K} {value : V}
    (hW : ht.WellPlaced hashFn) (hA : ht.AtMostOne)
    (h : ht.insert hashFn key value = some ht2) : ht2.keyCount key = 1 := by
  obtain ⟨hpos, hcase⟩ := insert_some_elim h
  have hA' := hA key
  rcases hcase with ⟨hfound, rfl⟩ | ⟨hnone, rfl⟩
  · have hset := keyCount_mk_set ht.table ht.count ht.count (bucketIdx hashFn ht key)
      hpos ⟨replaceFirst key value (ht.table[bucketIdx hashFn ht key]).list⟩ key
    have hrepl := countP_replaceFirst key key value
      (ht.table[bucketIdx hashFn ht key]).list
    have hEta : HashTable.keyCount ⟨ht.table, ht.count⟩ key = ht.keyCount key := rfl
    obtain ⟨n, hn⟩ := Option.isSome_iff_exists.mp hfound
    have hpn := List.find?_some hn
    have hge : 0 < (ht.table[bucketIdx hashFn ht key]).list.countP
        (fun n2 => decide (n2.key = key)) :=
      List.countP_pos_iff.mpr ⟨n, List.mem_of_find?_eq_some hn, hpn⟩
    have hsum : (ht.table[bucketIdx hashFn ht key]).list.countP
        (fun n2 => decide (n2.key = key)) ≤ ht.keyCount key := by
      unfold HashTable.keyCount
      exact List.le_sum_of_mem
        (List.mem_map_of_mem _ (List.getElem_mem hpos))
    dsimp only at hset
    omega
  · have hset := keyCount_mk_set ht.table (ht.count + 1) ht.count (bucketIdx hashFn ht key)
      hpos ⟨⟨key, value⟩ :: (ht.table[bucketIdx hashFn ht key]).list⟩ key
    have hEta : HashTable.keyCount ⟨ht.table, ht.count⟩ key = ht.keyCount key := rfl
    have hzero : ht.keyCount key = 0 := keyCount_eq_zero hW key hpos hnone
    have hcz : (ht.table[bucketIdx hashFn ht key]).list.countP
        (fun n2 => decide (n2.key = key)) = 0 :=
      List.countP_eq_zero.mpr (fun a ha => List.find?_eq_none.mp hnone a ha)
    dsimp only at hset
    rw [List.countP_cons_of_pos _ _ (by simp)] at hset
    omega

end Lemmas

end RStructs

namespace RStructs

/-- C1: for every sequence of (key, value) pairs with pairwise-distinct keys
inserted into a fresh table, `get` on each inserted key returns `Some` of the
value inserted with it and the `Index` lookup returns that value directly
(`Except.ok`), and this holds regardless of where in the sequence the pair
appears, i.e. also after later insertions of other distinct keys. -/
theorem claim_C1 (K V : Type) [DecidableEq K] (f : K → Nat) (l : List (K × V))
    (ht : HashTable K V) (hnd : (l.map Prod.fst).Nodup)
    (h : (HashTable.new K V).insertList f l = some ht)
    (k : K) (v : V) (hmem : (k, v) ∈ l) :
    ht.get f k = some (some v) ∧ ht.index f k = some (Except.ok v) := by
  have hg := get_insertList_mem l (HashTable.new K V) ht k v hnd hmem h
  exact ⟨hg, index_of_get_some hg⟩

theorem claim_C1_witness :
    c1Table.get id 1 = some (some 10) ∧ c1Table.index id 1 = some (Except.ok 10) :=
  claim_C1 Nat Nat id [(1, 10), (2, 20)] c1Table (by decide) rfl 1 10 (by decide)

/-- C2: inserting the same key twice with two different values into a reachable
table leaves only the second value retrievable via `get` and the `Index`
lookup, `len` does not increase on the second insert, and exactly one entry
for that key is retained (the matched entry is replaced wholesale). -/
theorem claim_C2 (K V : Type) [DecidableEq K] (f : K → Nat)
    (ht ht1 ht2 : HashTable K V) (hre : ht.Reachable f)
    (k : K) (v1 v2 : V) (hv : v1 ≠ v2)
    (h1 : ht.insert f k v1 = some ht1) (h2 : ht1.insert f k v2 = some ht2) :
    ht2.get f k = some (some v2) ∧ ht2.index f k = some (Except.ok v2)
      ∧ ht2.len = ht1.len ∧ ht2.keyCount k = 1 := by
  obtain ⟨-, hW, hA, -⟩ := reachable_props hre
  have hW1 := wellPlaced_insert hW h1
  have hA1 := atMostOne_insert hW hA h1
  have hget1 : ht1.get f k = some (some v1) := get_insert_self h1
  have hget2 : ht2.get f k = some (some v2) := get_insert_self h2
  exact ⟨hget2, index_of_get_some hget2, len_insert_of_get_some hget1 h2,
    keyCount_insert_self_eq_one hW1 hA1 h2⟩

theorem claim_C2_witness :
    c2Table2.get id 1 = some (some 20) ∧ c2Table2.index id 1 = some (Except.ok 20)
      ∧ c2Table2.len = c2Table1.len ∧ c2Table2.keyCount 1 = 1 :=
  claim_C2 Nat Nat id (HashTable.new Nat Nat) c2Table1 c2Table2 ⟨[], rfl⟩
    1 10 20 (by decide) rfl rfl

/-- C3: in every reachable state the stored count (`len`) equals the number of
stored entries, whose keys are pairwise distinct, i.e. the number of distinct
keys inserted so far; inserting an absent key increments `len` by exactly 1
and inserting a present key leaves it unchanged; inserting N pairwise-distinct
keys sequentially into a fresh table yields `len = N`, for all N ≥ 0. -/
theorem claim_C3 (K V : Type) [DecidableEq K] (f : K → Nat) :
    (∀ ht : HashTable K V, ht.Reachable f →
      ht.len = ht.allNodes.length ∧ ∀ k : K, ht.keyCount k ≤ 1) ∧
    (∀ (ht ht2 : HashTable K V) (k : K) (v : V), ht.get f k = some none →
      ht.insert f k v = some ht2 → ht2.len = ht.len + 1) ∧
    (∀ (ht ht2 : HashTable K V) (k : K) (v w : V), ht.get f k = some (some w) →
      ht.insert f k v = some ht2 → ht2.len = ht.len) ∧
    (∀ (l : List (K × V)) (ht2 : HashTable K V), (l.map Prod.fst).Nodup →
      (HashTable.new K V).insertList f l = some ht2 → ht2.len = l.length) := by
  refine ⟨?_, ?_, ?_, ?_⟩
  · intro ht hre
    obtain ⟨-, -, hA, hc⟩ := reachable_props hre
    exact ⟨hc, hA⟩
  · intro ht ht2 k v hg h
    exact len_insert_of_get_none hg h
  · intro ht ht2 k v w hg h
    exact len_insert_of_get_some hg h
  · intro l ht2 hnd h
    have habs : ∀ p ∈ l, (HashTable.new K V).get f p.1 = some none :=
      fun p _ => get_new f p.1
    have hlen := len_insertList_distinct l (HashTable.new K V) ht2 hnd habs h
    simpa [HashTable.new, HashTable.len] using hlen

theorem claim_C3_witness : c3ListTable.len = 3 :=
  (claim_C3 Nat Nat id).2.2.2 [(1, 1), (2, 2), (3, 3)] c3ListTable (by decide) rfl

/-- C4: the `Index` lookup delegates to `get`: when `get` returns a value the
lookup returns it directly, and when `get` signals absence the lookup raises
the fatal fault whose message is "entry not found"; in particular it faults
for any key on the fresh (empty) table. -/
theorem claim_C4 (K V : Type) [DecidableEq K] (f : K → Nat)
    (ht : HashTable K V) (k : K) :
    (∀ v : V, ht.get f k = some (some v) → ht.index f k = some (Except.ok v)) ∧
    (ht.get f k = some none →
      ht.index f k = some (Except.error "entry not found")) ∧
    (HashTable.new K V).index f k = some (Except.error "entry not found") := by
  refine ⟨fun v hv => index_of_get_some hv, fun hn => index_of_get_none hn, ?_⟩
  exact index_of_get_none (get_new f k)

theorem claim_C4_witness :
    c4Table.index id 3 = some (Except.ok 9)
      ∧ (HashTable.new Nat Nat).index id 3 = some (Except.error "entry not found") :=
  ⟨(claim_C4 Nat Nat id c4Table 3).1 9 rfl,
   (claim_C4 Nat Nat id (HashTable.new Nat Nat) 3).2.2⟩

/-- C5: for every table built by a sequence of insertions and every key not
equal to any inserted key, `get` returns the explicit absent signal (Rust
`None`, embedded as `some none`): absence via `get` is not a fault. -/
theorem claim_C5 (K V : Type) [DecidableEq K] (f : K → Nat) (l : List (K × V))
    (ht : HashTable K V) (h : (HashTable.new K V).insertList f l = some ht)
    (k : K) (hk : k ∉ l.map Prod.fst) :
    ht.get f k = some none := by
  rw [get_insertList_not_mem l (HashTable.new K V) ht k hk h]
  exact get_new f k

theorem claim_C5_witness : c5Table.get id 31 = some none :=
  claim_C5 Nat Nat id [(1, 11), (2, 21)] c5Table rfl 31 (by decide)

/-- C6: in every reachable state at most one entry per distinct key exists
across all buckets, and every entry resides in exactly the bucket at index
`hash(key) mod bucket_count`; both conditions hold for the fresh table and
are preserved by every (non-panicking) insert. -/
theorem claim_C6 (K V : Type) [DecidableEq K] (f : K → Nat) :
    ((HashTable.new K V).WellPlaced f ∧ (HashTable.new K V).AtMostOne) ∧
    (∀ (ht ht2 : HashTable K V) (k : K) (v : V),
      ht.WellPlaced f → ht.AtMostOne → ht.insert f k v = some ht2 →
      ht2.WellPlaced f ∧ ht2.AtMostOne) ∧
    (∀ ht : HashTable K V, ht.Reachable f → ht.WellPlaced f ∧ ht.AtMostOne) := by
  refine ⟨⟨wellPlaced_new f, atMostOne_new K V⟩, ?_, ?_⟩
  · intro ht ht2 k v hW hA h
    exact ⟨wellPlaced_insert hW h, atMostOne_insert hW hA h⟩
  · intro ht hre
    obtain ⟨-, hW, hA, -⟩ := reachable_props hre
    exact ⟨hW, hA⟩

theorem claim_C6_witness :
    (HashTable.new Nat Nat).WellPlaced id ∧ (HashTable.new Nat Nat).AtMostOne :=
  (claim_C6 Nat Nat id).2.2 (HashTable.new Nat Nat) ⟨[], rfl⟩

/-- C7: a freshly constructed table has `len = 0`, `nbuckets = 16`, and all
its (16) buckets are empty. -/
theorem claim_C7 (K V : Type) :
    (HashTable.new K V).len = 0 ∧ (HashTable.new K V).nbuckets = 16
      ∧ ∀ b ∈ (HashTable.new K V).table, b.list = [] := by
  refine ⟨rfl, nbuckets_new K V, ?_⟩
  intro b hb
  have hb2 : b = Bucket.defaultBucket K V := by
    simpa [HashTable.new, DEFAULT_CAPACITY, List.mem_replicate] using hb
  rw [hb2]
  rfl

theorem claim_C7_witness :
    (HashTable.new Nat Nat).len = 0 ∧ (HashTable.new Nat Nat).nbuckets = 16
      ∧ (Bucket.defaultBucket Nat Nat).list = [] :=
  ⟨(claim_C7 Nat Nat).1, (claim_C7 Nat Nat).2.1,
   (claim_C7 Nat Nat).2.2 (Bucket.defaultBucket Nat Nat)
     (List.mem_replicate.mpr ⟨by decide, rfl⟩)⟩

/-- C8: an insert may change only the bucket at the derived index and the
count: every bucket at a different index is unchanged and the bucket count
never changes; `get`, `len`, `nbuckets` and the `Index` lookup are embedded
as pure functions of the table and return no modified state at all. -/
theorem claim_C8 (K V : Type) [DecidableEq K] (f : K → Nat)
    (ht ht2 : HashTable K V) (k : K) (v : V)
    (h : ht.insert f k v = some ht2) :
    ht2.nbuckets = ht.nbuckets ∧
    ∀ j : Nat, j ≠ bucketIdx f ht k → ht2.table[j]? = ht.table[j]? := by
  obtain ⟨hpos, hcase⟩ := insert_some_elim h
  refine ⟨nbuckets_insert h, ?_⟩
  intro j hj
  rcases hcase with ⟨-, rfl⟩ | ⟨-, rfl⟩ <;>
    exact List.getElem?_set_ne (Ne.symm hj)

theorem claim_C8_witness :
    c8Table.nbuckets = (HashTable.new Nat Nat).nbuckets
      ∧ c8Table.table[3]? = (HashTable.new Nat Nat).table[3]? :=
  ⟨(claim_C8 Nat Nat id (HashTable.new Nat Nat) c8Table 0 5 rfl).1,
   (claim_C8 Nat Nat id (HashTable.new Nat Nat) c8Table 0 5 rfl).2 3 (by decide)⟩

/-- C9: `hash_for` is a deterministic pure function of the key: equal keys
hash identically, and consequently `insert` and `get` applied to equal keys
select the same bucket index (and behave identically) on every table. -/
theorem claim_C9 (K V : Type) [DecidableEq K] (f : K → Nat) (k1 k2 : K)
    (h : k1 = k2) :
    hash_for f k1 = hash_for f k2 ∧
    ∀ ht : HashTable K V, bucketIdx f ht k1 = bucketIdx f ht k2
      ∧ ht.get f k1 = ht.get f k2
      ∧ ∀ v : V, ht.insert f k1 v = ht.insert f k2 v := by
  subst h
  exact ⟨rfl, fun ht => ⟨rfl, rfl, fun v => rfl⟩⟩

theorem claim_C9_witness :
    hash_for id 4 = hash_for id 4
      ∧ bucketIdx id (HashTable.new Nat Nat) 4 = bucketIdx id (HashTable.new Nat Nat) 4 :=
  ⟨(claim_C9 Nat Nat id 4 4 rfl).1,
   ((claim_C9 Nat Nat id 4 4 rfl).2 (HashTable.new Nat Nat)).1⟩

/-- C10: on every reachable table the bucket count is 16 and hence never
zero, the derived bucket index `hash mod nbuckets` is strictly below the
bucket-array length (the access is in bounds), and `insert` and `get` are
total: they never return the embedded panic case `none`. -/
theorem claim_C10 (K V : Type) [DecidableEq K] (f : K → Nat)
    (ht : HashTable K V) (hre : ht.Reachable f) :
    ht.nbuckets = 16 ∧ ht.nbuckets ≠ 0 ∧
    ∀ (k : K) (v : V), bucketIdx f ht k < ht.table.length ∧
      (∃ ht2, ht.insert f k v = some ht2) ∧ (∃ r, ht.get f k = some r) := by
  obtain ⟨h16, -, -, -⟩ := reachable_props hre
  have h0 : ht.nbuckets ≠ 0 := by rw [h16]; omega
  refine ⟨h16, h0, fun k v => ⟨bucketIdx_lt f ht k h0, insert_isSome f ht k v h0, ?_⟩⟩
  have hpos := bucketIdx_lt f ht k h0
  rw [get_eq k hpos]
  exact ⟨_, rfl⟩

theorem claim_C10_witness : (HashTable.new Nat Nat).nbuckets = 16 :=
  (claim_C10 Nat Nat id (HashTable.new Nat Nat) ⟨[], rfl⟩).1

end RStructs
